import Mathlib

/-!
Verification of the configuration-patch mechanism (`torch/config_utils.py`)
and the LARS optimizer step (`torch/optim/lars.py`).

The configuration namespace is modelled as a tree of attribute maps: a value
is either a primitive leaf or an object carrying an ordered association list
of named attributes (mirroring a Python instance `__dict__`, which is an
insertion-ordered mapping with unique keys).  Attribute lookup failure
(Python `AttributeError`) is modelled by `Option`.

Tensors are modelled as lists of real numbers; `torch.norm` is the Euclidean
norm.  Python exceptions raised by the optimizer constructor are modelled by
`Except`.
-/

set_option maxHeartbeats 1000000

/-- A configuration value: a primitive leaf (numbers, booleans, strings and
similar are all represented by an integer code) or a nested object with an
ordered attribute list, mirroring a Python instance and its `__dict__`. -/
inductive CVal where
  | prim (n : Int)
  | obj (attrs : List (String × CVal))

/-- Lookup in an attribute list: the value bound to the first occurrence of
`name`, mirroring dictionary lookup in a Python `__dict__`. -/
def getattrA : List (String × CVal) → String → Option CVal
  | [], _ => none
  | (k, v) :: rest, name => if k = name then some v else getattrA rest name

/-- `setattr` on an attribute list: replace the binding of the first
occurrence of `name`, or append a new binding (Python dictionaries keep the
position of an existing key and append new keys). -/
def setattrA : List (String × CVal) → String → CVal → List (String × CVal)
  | [], name, v => [(name, v)]
  | (k, w) :: rest, name, v =>
      if k = name then (k, v) :: rest else (k, w) :: setattrA rest name v

/-- `delattr` on an attribute list: remove the first occurrence of `name`;
`none` models the `AttributeError` raised when the attribute is absent. -/
def delattrA : List (String × CVal) → String → Option (List (String × CVal))
  | [], _ => none
  | (k, w) :: rest, name =>
      if k = name then some rest else (delattrA rest name).map (fun r => (k, w) :: r)

/-- `getattr(cur, name)`: attribute lookup on a value; configuration
attribute names never resolve on primitive leaves (`AttributeError`). -/
def getattrV : CVal → String → Option CVal
  | .prim _, _ => none
  | .obj attrs, name => getattrA attrs name

/-- `setattr(cur, name, v)`: setting an attribute succeeds on an object and
fails on a primitive leaf (Python raises `AttributeError` when setting an
attribute on builtin scalar values). -/
def setattrV : CVal → String → CVal → Option CVal
  | .prim _, _, _ => none
  | .obj attrs, name, v => some (.obj (setattrA attrs name v))

/-- Model of the Python string method split used by the dotted-path walk:
split a character list on the dot character. -/
def splitCharList : List Char → List Char → List String
  | [], acc => [String.mk acc.reverse]
  | c :: cs, acc =>
      if c = '.' then String.mk acc.reverse :: splitCharList cs [] else splitCharList cs (c :: acc)

/-- `key.split(".")` from `_update_single` and `_get_single`: the list of
dot-separated segments of a key.  Always returns at least one segment. -/
def splitKey (key : String) : List String :=
  splitCharList key.toList []

/-- The left-to-right attribute walk shared by `_get_single` (over all
segments) and `_update_single` (over all but the last segment): fails at the
first segment that does not resolve. -/
def getPath : CVal → List String → Option CVal
  | cur, [] => some cur
  | cur, t :: rest =>
      match getattrV cur t with
      | none => none
      | some nxt => getPath nxt rest

/-- The write part of `ConfigMixin._update_single`: walk `getattr` over all
segments but the last, then `setattr` the final segment. -/
def setPath : CVal → List String → CVal → Option CVal
  | _, [], _ => none
  | cur, [last], v => setattrV cur last v
  | cur, t :: r :: rest, v =>
      match getattrV cur t with
      | none => none
      | some sub =>
          match setPath sub (r :: rest) v with
          | none => none
          | some sub2 => setattrV cur t sub2

/-- `ConfigMixin._get_single(key)` (src/torch/config_utils.py lines 61-66). -/
def ConfigMixin_get_single (cfg : CVal) (key : String) : Option CVal :=
  getPath cfg (splitKey key)

/-- `ConfigMixin._update_single(key, val)` (src/torch/config_utils.py lines
54-59). -/
def ConfigMixin_update_single (cfg : CVal) (key : String) (v : CVal) : Option CVal :=
  setPath cfg (splitKey key) v

/-- `ConfigMixin.update(content_dict)` (lines 68-70), run with Python effect
order: apply `_update_single` for each entry in order; an exception stops the
run, keeping the writes already performed (the accepted mid-batch incomplete
write).  Returns the resulting namespace and whether the run completed. -/
def updateRun : CVal → List (String × CVal) → CVal × Bool
  | cfg, [] => (cfg, true)
  | cfg, (k, v) :: rest =>
      match ConfigMixin_update_single cfg k v with
      | none => (cfg, false)
      | some cfg2 => updateRun cfg2 rest

/-- The prior-recording loop of `ConfigPatch.__enter__` (lines 111-113):
`prior[key] = config._get_single(key)` for each key of the change set, in
order.  A lookup failure stops the loop; the priors recorded before the
failure are kept (incomplete recording). -/
def recordPriors : CVal → List (String × CVal) → List (String × CVal) × Bool
  | _, [] => ([], true)
  | cfg, (k, _) :: rest =>
      match ConfigMixin_get_single cfg k with
      | none => ([], false)
      | some pv =>
          let tail := recordPriors cfg rest
          ((k, pv) :: tail.1, tail.2)

/-- The state of a `ConfigPatch` scope object: the change set fixed at
`patch(...)` time and the mutable `prior` dictionary. -/
structure PatchScope where
  changes : List (String × CVal)
  prior : List (String × CVal)

/-- `ConfigPatch.__enter__` (lines 109-114): assert `prior` is empty, record
the prior value of every key of the change set, then apply the change set.
Returns the resulting namespace, the resulting scope state, and whether the
call completed without raising. -/
def enterRun (cfg : CVal) (s : PatchScope) : CVal × PatchScope × Bool :=
  match s.prior with
  | _ :: _ => (cfg, s, false)
  | [] =>
      let rp := recordPriors cfg s.changes
      if rp.2 then
        let ur := updateRun cfg s.changes
        (ur.1, ⟨s.changes, rp.1⟩, ur.2)
      else (cfg, ⟨s.changes, rp.1⟩, false)

/-- `ConfigPatch.__exit__` (lines 116-118): `config.update(prior)` then
`prior.clear()`; a failure during the restore propagates before the clear. -/
def exitRun (cfg : CVal) (s : PatchScope) : CVal × PatchScope × Bool :=
  let ur := updateRun cfg s.prior
  if ur.2 then (ur.1, ⟨s.changes, []⟩, true) else (ur.1, s, false)

/-- A patch scope used as a context guard (`with config.patch(...)`): enter,
run the guarded block, and, by the semantics of the `with` statement, run
`__exit__` whether or not the block raised.  The block is modelled by its
effect on the namespace together with a flag telling whether it raised; a
raising block still reaches `__exit__`.  The final flag tells whether the
whole statement completed without an exception escaping. -/
def withPatchRun (cfg : CVal) (s : PatchScope) (body : CVal → CVal × Bool) :
    CVal × PatchScope × Bool :=
  let e := enterRun cfg s
  if e.2.2 then
    let b := body e.1
    let x := exitRun b.1 e.2.1
    (x.1, x.2.1, x.2.2 && !b.2)
  else (e.1, e.2.1, false)

/-- Whether the dot-path `p` is an initial run of the dot-path `q` (so a
write through `q` may pass through the location named by `p`). -/
def pathStarts : List String → List String → Bool
  | [], _ => true
  | _ :: _, [] => false
  | a :: as, b :: bs => a = b && pathStarts as bs

/-- Two dotted keys address independent locations: neither path is an
initial run of the other. -/
def DivKey (k1 k2 : String) : Prop :=
  pathStarts (splitKey k1) (splitKey k2) = false ∧ pathStarts (splitKey k2) (splitKey k1) = false

/-- A valid change set for a namespace: the keys address pairwise
independent locations and every key resolves in the namespace. -/
def ValidChanges (cfg : CVal) (l : List (String × CVal)) : Prop :=
  (l.map Prod.fst).Pairwise DivKey ∧ ∀ kv ∈ l, (ConfigMixin_get_single cfg kv.1).isSome

/-- `ConfigMixin.save_config` (lines 43-47): copy the attribute list, delete
every key of the ignore list in order, and serialize.  The pickle of a
namespace holding only primitive and container values round-trips exactly,
so the serialized blob is modelled by the surviving attribute list itself;
`none` models the `AttributeError` from `delattr` on an absent key. -/
def save_config (attrs : List (String × CVal)) (ignore : List String) :
    Option (List (String × CVal)) :=
  ignore.foldlM delattrA attrs

/-- `ConfigMixin.load_config` (lines 49-52): deserialize the blob and
`self.__dict__.update(state.__dict__)`, overwriting the live attributes
entry by entry in blob order. -/
def load_config (self blob : List (String × CVal)) : List (String × CVal) :=
  blob.foldl (fun acc kv => setattrA acc kv.1 kv.2) self

/-- Names bound at module scope in `src/torch/config_utils.py`: its import
statements (lines 1-6) and the top-level definitions of the module.  Notably
absent: `unittest`. -/
def configUtilsModuleNames : List String :=
  ["copy", "dataclasses", "functools", "pickle", "torch", "contextlib",
   "ContextDecorator", "ConfigMixin", "CONFIG_TYPES", "make_config_dataclass"]

/-- Outcomes of applying `ContextDecorator.__call__` to a decoration target. -/
inductive DecorateResult where
  | testCaseWrapper
  | plainWrapper
  | nameErrorRaised (missing : String)
deriving DecidableEq

/-- `ContextDecorator.__call__` (src/torch/config_utils.py lines 15-38).
When the decorated object is a class, the guard
`issubclass(func, unittest.TestCase)` evaluates the bare name `unittest`,
which is resolved against the module globals (then the builtins, which do
not bind it); when the decorated object is a function the guard
short-circuits at `isinstance(func, type)` and the plain
`contextlib.ContextDecorator` wrapping applies. -/
def contextDecoratorCall (funcIsClass : Bool) : DecorateResult :=
  if funcIsClass then
    if "unittest" ∈ configUtilsModuleNames then DecorateResult.testCaseWrapper
    else DecorateResult.nameErrorRaised ("unittest")
  else DecorateResult.plainWrapper

/-! ## The LARS optimizer step (`src/torch/optim/lars.py`) -/

/-- A tensor, modelled as its flat list of real entries. -/
abbrev Tensor := List ℝ

/-- Sum of squared entries of a tensor. -/
def sumSq (v : Tensor) : ℝ := (v.map (fun x => x * x)).sum

/-- `torch.norm`: the Euclidean norm of the tensor. -/
noncomputable def tnorm (v : Tensor) : ℝ := Real.sqrt (sumSq v)

/-- Tensor negation (`-grads[i]`). -/
def tneg (v : Tensor) : Tensor := v.map (fun x => -x)

/-- `a.add(b, alpha=c)` and the in-place `a.add_(b, alpha=c)`: entrywise
`a + c * b`. -/
def taddScaled (a b : Tensor) (alpha : ℝ) : Tensor :=
  List.zipWith (fun x y => x + alpha * y) a b

/-- `v.mul_(c)` and `torch.clone` composed with scaling: entrywise `c * v`. -/
def tsmul (c : ℝ) (v : Tensor) : Tensor := v.map (fun x => c * x)

/-- `d_p = grads[i] if not maximize else -grads[i]` (line 148). -/
def effGrad (maximize : Bool) (grad : Tensor) : Tensor :=
  if maximize then tneg grad else grad

/-- The keyword arguments of `_single_tensor_lars`. -/
structure LarsArgs where
  lr : ℝ
  momentum : ℝ
  dampening : ℝ
  weight_decay : ℝ
  nesterov : Bool
  trust_coefficient : ℝ
  eps : ℝ
  maximize : Bool

/-- Lines 150-159 of `_single_tensor_lars`: compute the two norms and, when
`weight_decay != 0` and `p_norm * g_norm > 0`, replace `d_p` by
`(d_p + weight_decay * param) * lars_lr` with
`lars_lr = trust_coefficient * p_norm / (g_norm + p_norm * weight_decay + eps)`;
otherwise leave `d_p` unchanged. -/
noncomputable def larsScaleStep (a : LarsArgs) (param d_p : Tensor) : Tensor :=
  let p_norm := tnorm param
  let g_norm := tnorm d_p
  if a.weight_decay ≠ 0 then
    if p_norm * g_norm > 0 then
      tsmul (a.trust_coefficient * p_norm / (g_norm + p_norm * a.weight_decay + a.eps))
        (taddScaled d_p param a.weight_decay)
    else d_p
  else d_p

/-- One iteration of the loop body of `_single_tensor_lars` (lines 147-170):
the sign flip for `maximize`, the LARS scaling block, and the momentum-buffer
block.  Returns the final `d_p` of the iteration together with the entry the
iteration leaves in `momentum_buffer_list` (a fresh clone of `d_p` when the
buffer was `None`, the in-place updated buffer otherwise, and the untouched
incoming entry when `momentum == 0`). -/
noncomputable def larsIter (a : LarsArgs) (param grad : Tensor) (buf0 : Option Tensor) :
    Tensor × Option Tensor :=
  let d_p := larsScaleStep a param (effGrad a.maximize grad)
  if a.momentum ≠ 0 then
    match buf0 with
    | none =>
        let buf := d_p
        (if a.nesterov then taddScaled d_p buf a.momentum else buf, some buf)
    | some b =>
        let buf := taddScaled (tsmul a.momentum b) d_p (1 - a.dampening)
        (if a.nesterov then taddScaled d_p buf a.momentum else buf, some buf)
  else (d_p, buf0)

/-- `_single_tensor_lars` (lines 133-172).  The loop runs one iteration per
parameter; the only write to `params` is the single `param.add_(d_p, alpha=-lr)`
on line 172, which sits OUTSIDE the loop and therefore touches only the last
loop variables.  `none` models the exceptions of degenerate calls: the
`NameError` when `params` is empty (the loop never binds `param`/`d_p`) and
the `IndexError` when `grads` or `momentum_buffer_list` is shorter than
`params`. -/
noncomputable def _single_tensor_lars (a : LarsArgs) (params grads : List Tensor)
    (bufs : List (Option Tensor)) : Option (List Tensor × List (Option Tensor)) :=
  if params.length = 0 ∨ grads.length < params.length ∨ bufs.length < params.length then none
  else
    let iters := List.zipWith (fun pg b => larsIter a pg.1 pg.2 b) (params.zip grads) bufs
    let newBufs := iters.map Prod.snd ++ bufs.drop params.length
    match params.getLast?, iters.getLast? with
    | some pLast, some itLast =>
        some (params.set (params.length - 1) (taddScaled pLast itLast.1 (-a.lr)), newBufs)
    | _, _ => none

/-- The configuration errors raised by `LARS.__init__` (lines 26-33). -/
inductive InitError where
  | invalidLearningRate
  | invalidWeightDecayValue
  | invalidMomentumValue
  | nesterovRequiresMomentumAndZeroDampening
deriving DecidableEq

/-- `LARS.__init__` validation (src/torch/optim/lars.py lines 26-33), with
the checks performed in source order; on success the hyperparameter defaults
dictionary is built. -/
noncomputable def LARS_init (lr momentum dampening weight_decay : ℝ) (nesterov : Bool)
    (trust_coefficient eps : ℝ) (maximize : Bool) : Except InitError LarsArgs :=
  if lr < 0 then .error .invalidLearningRate
  else if weight_decay < 0 then .error .invalidWeightDecayValue
  else if momentum < 0 then .error .invalidMomentumValue
  else if nesterov = true ∧ (momentum ≤ 0 ∨ dampening ≠ 0) then
    .error .nesterovRequiresMomentumAndZeroDampening
  else .ok ⟨lr, momentum, dampening, weight_decay, nesterov, trust_coefficient, eps, maximize⟩

/-! ## Attribute and path lemmas -/

theorem getattrA_setattrA_same (l : List (String × CVal)) (name : String) (v : CVal) :
    getattrA (setattrA l name v) name = some v := by
  induction l with
  | nil => simp [setattrA, getattrA]
  | cons kv rest ih =>
      obtain ⟨k, w⟩ := kv
      by_cases hk : k = name
      · simp [setattrA, hk, getattrA]
      · simp [setattrA, hk, getattrA, ih]

theorem getattrA_setattrA_ne (l : List (String × CVal)) (name k : String) (v : CVal)
    (hne : k ≠ name) : getattrA (setattrA l name v) k = getattrA l k := by
  induction l with
  | nil =>
      simp only [setattrA, getattrA]
      rw [if_neg (fun h => hne h.symm)]
  | cons kv rest ih =>
      obtain ⟨k0, w⟩ := kv
      simp only [setattrA]
      by_cases hk : k0 = name
      · rw [if_pos hk]
        have h1 : ¬ k0 = k := fun h => hne (h.symm.trans hk)
        simp only [getattrA]
        rw [if_neg h1, if_neg h1]
      · rw [if_neg hk]
        simp only [getattrA]
        by_cases h2 : k0 = k
        · rw [if_pos h2, if_pos h2]
        · rw [if_neg h2, if_neg h2, ih]

theorem getPath_setPath_same (p : List String) (cfg cfg2 v : CVal)
    (h : setPath cfg p v = some cfg2) : getPath cfg2 p = some v := by
  induction p generalizing cfg cfg2 with
  | nil => simp [setPath] at h
  | cons t rest ih =>
      cases rest with
      | nil =>
          cases cfg with
          | prim n => simp [setPath, setattrV] at h
          | obj attrs =>
              simp only [setPath, setattrV, Option.some.injEq] at h
              subst h
              simp [getPath, getattrV, getattrA_setattrA_same]
      | cons r rest2 =>
          simp only [setPath] at h
          cases hg : getattrV cfg t with
          | none =>
              simp only [hg] at h
              exact Option.noConfusion h
          | some sub =>
              simp only [hg] at h
              cases hs : setPath sub (r :: rest2) v with
              | none =>
                  simp only [hs] at h
                  exact Option.noConfusion h
              | some sub2 =>
                  simp only [hs] at h
                  cases cfg with
                  | prim n => simp [getattrV] at hg
                  | obj attrs =>
                      simp only [setattrV, Option.some.injEq] at h
                      subst h
                      simp only [getPath, getattrV, getattrA_setattrA_same]
                      exact ih sub sub2 hs

theorem getPath_setPath_divergent (p2 p1 : List String) (cfg cfg2 v : CVal)
    (h : setPath cfg p2 v = some cfg2)
    (h12 : pathStarts p1 p2 = false) (h21 : pathStarts p2 p1 = false) :
    getPath cfg2 p1 = getPath cfg p1 := by
  induction p2 generalizing p1 cfg cfg2 with
  | nil => simp [setPath] at h
  | cons t rest ih =>
      cases p1 with
      | nil => simp [pathStarts] at h12
      | cons a r1 =>
          cases rest with
          | nil =>
              cases cfg with
              | prim n => simp [setPath, setattrV] at h
              | obj attrs =>
                  simp only [setPath, setattrV, Option.some.injEq] at h
                  subst h
                  have hat : ¬ (a = t) := by
                    intro hEq
                    subst hEq
                    simp [pathStarts] at h21
                  simp only [getPath, getattrV]
                  rw [getattrA_setattrA_ne _ _ _ _ hat]
          | cons r rest2 =>
              simp only [setPath] at h
              cases hg : getattrV cfg t with
              | none =>
                  simp only [hg] at h
                  exact Option.noConfusion h
              | some sub =>
                  simp only [hg] at h
                  cases hs : setPath sub (r :: rest2) v with
                  | none =>
                      simp only [hs] at h
                      exact Option.noConfusion h
                  | some sub2 =>
                      simp only [hs] at h
                      cases cfg with
                      | prim n => simp [getattrV] at hg
                      | obj attrs =>
                          simp only [setattrV, Option.some.injEq] at h
                          subst h
                          simp only [getattrV] at hg
                          by_cases hat : a = t
                          · subst hat
                            have h12t : pathStarts r1 (r :: rest2) = false := by
                              simpa [pathStarts] using h12
                            have h21t : pathStarts (r :: rest2) r1 = false := by
                              simpa [pathStarts] using h21
                            simp only [getPath, getattrV, getattrA_setattrA_same, hg]
                            exact ih r1 sub sub2 hs h12t h21t
                          · simp only [getPath, getattrV]
                            rw [getattrA_setattrA_ne _ _ _ _ hat]

theorem setPath_isSome (p : List String) (cfg w : CVal) (v : CVal)
    (h : getPath cfg p = some w) (hne : p ≠ []) : (setPath cfg p v).isSome := by
  induction p generalizing cfg w with
  | nil => exact absurd rfl hne
  | cons t rest ih =>
      cases rest with
      | nil =>
          simp only [getPath] at h
          cases cfg with
          | prim n => simp [getattrV] at h
          | obj attrs => simp [setPath, setattrV]
      | cons r rest2 =>
          simp only [getPath] at h
          cases hg : getattrV cfg t with
          | none =>
              simp only [hg] at h
              exact Option.noConfusion h
          | some sub =>
              simp only [hg] at h
              have hsub := ih sub w h (by simp)
              cases hsp : setPath sub (r :: rest2) v with
              | none => rw [hsp] at hsub; simp at hsub
              | some sub2 =>
                  cases cfg with
                  | prim n => simp [getattrV] at hg
                  | obj attrs =>
                      simp only [setPath, hg, hsp, setattrV]
                      rfl

theorem setPath_none_of_walk_none (p : List String) (cfg : CVal) (v : CVal)
    (h : getPath cfg p.dropLast = none) : setPath cfg p v = none := by
  induction p generalizing cfg with
  | nil => simp [setPath]
  | cons t rest ih =>
      cases rest with
      | nil => simp [getPath] at h
      | cons r rest2 =>
          have hdl : (t :: r :: rest2).dropLast = t :: (r :: rest2).dropLast := rfl
          rw [hdl] at h
          simp only [getPath] at h
          cases hg : getattrV cfg t with
          | none => simp [setPath, hg]
          | some sub =>
              simp only [hg] at h
              simp only [setPath, hg]
              rw [ih sub h]

theorem splitCharList_ne_nil (cs acc : List Char) : splitCharList cs acc ≠ [] := by
  induction cs generalizing acc with
  | nil => simp [splitCharList]
  | cons c rest ih =>
      simp only [splitCharList]
      by_cases hc : c = '.'
      · rw [if_pos hc]; simp
      · rw [if_neg hc]; exact ih _

theorem splitKey_ne_nil (key : String) : splitKey key ≠ [] :=
  splitCharList_ne_nil _ _

/-- Update of a change set whose keys address pairwise independent locations
and all resolve: the run completes, afterwards every key of the set reads
back its written value, and every path independent from all keys of the set
is untouched. -/
theorem updateRun_spec (l : List (String × CVal)) (cfg : CVal)
    (hdiv : (l.map Prod.fst).Pairwise DivKey)
    (hres : ∀ kv ∈ l, (ConfigMixin_get_single cfg kv.1).isSome) :
    (updateRun cfg l).2 = true ∧
    (∀ kv ∈ l, ConfigMixin_get_single (updateRun cfg l).1 kv.1 = some kv.2) ∧
    (∀ q : List String,
      (∀ kv ∈ l, pathStarts q (splitKey kv.1) = false ∧ pathStarts (splitKey kv.1) q = false) →
      getPath (updateRun cfg l).1 q = getPath cfg q) := by
  induction l generalizing cfg with
  | nil =>
      refine ⟨rfl, ?_, ?_⟩
      · intro kv hkv; simp at hkv
      · intro q hq; rfl
  | cons kv0 rest ih =>
      obtain ⟨k, v⟩ := kv0
      obtain ⟨w, hw⟩ := Option.isSome_iff_exists.mp (hres (k, v) (by simp))
      have hset : (setPath cfg (splitKey k) v).isSome :=
        setPath_isSome _ _ _ _ hw (splitKey_ne_nil k)
      obtain ⟨cfg1, hcfg1⟩ := Option.isSome_iff_exists.mp hset
      have hrun : updateRun cfg ((k, v) :: rest) = updateRun cfg1 rest := by
        simp only [updateRun, ConfigMixin_update_single, hcfg1]
      have hdivrest : (rest.map Prod.fst).Pairwise DivKey := by
        exact (List.pairwise_cons.mp hdiv).2
      have hheaddiv : ∀ kv ∈ rest, DivKey k kv.1 := by
        intro kv hkv
        exact (List.pairwise_cons.mp hdiv).1 kv.1 (List.mem_map_of_mem Prod.fst hkv)
      have hresrest : ∀ kv ∈ rest, (ConfigMixin_get_single cfg1 kv.1).isSome := by
        intro kv hkv
        have hd := hheaddiv kv hkv
        have heq : getPath cfg1 (splitKey kv.1) = getPath cfg (splitKey kv.1) :=
          getPath_setPath_divergent _ _ _ _ _ hcfg1 hd.2 hd.1
        unfold ConfigMixin_get_single
        rw [heq]
        exact hres kv (by simp [hkv])
      obtain ⟨ih1, ih2, ih3⟩ := ih cfg1 hdivrest hresrest
      rw [hrun]
      refine ⟨ih1, ?_, ?_⟩
      · intro kv hkv
        rcases List.mem_cons.mp hkv with hkv | hkv
        · subst hkv
          have hv1 : getPath cfg1 (splitKey k) = some v :=
            getPath_setPath_same _ _ _ _ hcfg1
          have hpres : getPath (updateRun cfg1 rest).1 (splitKey k) = getPath cfg1 (splitKey k) := by
            apply ih3
            intro kv2 hkv2
            have hd := hheaddiv kv2 hkv2
            exact ⟨hd.1, hd.2⟩
          unfold ConfigMixin_get_single
          rw [hpres, hv1]
        · exact ih2 kv hkv
      · intro q hq
        have hq1 : getPath cfg1 q = getPath cfg q := by
          have hd := hq (k, v) (by simp)
          exact getPath_setPath_divergent _ _ _ _ _ hcfg1 hd.1 hd.2
        rw [ih3 q (fun kv hkv => hq (kv) (by simp [hkv])), hq1]

/-- When every key of the change set resolves, the prior-recording loop
completes, records exactly the keys of the change set in order, and records
for each key its current value. -/
theorem recordPriors_spec (l : List (String × CVal)) (cfg : CVal)
    (hres : ∀ kv ∈ l, (ConfigMixin_get_single cfg kv.1).isSome) :
    (recordPriors cfg l).2 = true ∧
    ((recordPriors cfg l).1).map Prod.fst = l.map Prod.fst ∧
    (∀ pkv ∈ (recordPriors cfg l).1, ConfigMixin_get_single cfg pkv.1 = some pkv.2) := by
  induction l with
  | nil => exact ⟨rfl, rfl, by intro pkv h; simp [recordPriors] at h⟩
  | cons kv0 rest ih =>
      obtain ⟨k, v⟩ := kv0
      obtain ⟨w, hw⟩ := Option.isSome_iff_exists.mp (hres (k, v) (by simp))
      obtain ⟨ih1, ih2, ih3⟩ := ih (fun kv hkv => hres kv (by simp [hkv]))
      refine ⟨?_, ?_, ?_⟩
      · simp only [recordPriors, hw]
        exact ih1
      · simp only [recordPriors, hw, List.map_cons]
        rw [ih2]
      · intro pkv hpkv
        simp only [recordPriors, hw, List.mem_cons] at hpkv
        rcases hpkv with hpkv | hpkv
        · subst hpkv
          exact hw
        · exact ih3 pkv hpkv

/-- A lookup failure on some key of the change set makes the prior-recording
loop fail. -/
theorem recordPriors_fail (l : List (String × CVal)) (cfg : CVal)
    (h : ∃ kv ∈ l, ConfigMixin_get_single cfg kv.1 = none) :
    (recordPriors cfg l).2 = false := by
  induction l with
  | nil => simp at h
  | cons kv0 rest ih =>
      obtain ⟨k, v⟩ := kv0
      obtain ⟨kv, hkv, hnone⟩ := h
      rcases List.mem_cons.mp hkv with hkv | hkv
      · subst hkv
        simp only [recordPriors, hnone]
      · cases hg : ConfigMixin_get_single cfg k with
        | none => simp only [recordPriors, hg]
        | some pv =>
            simp only [recordPriors, hg]
            exact ih ⟨kv, hkv, hnone⟩

/-- For a valid change set, `__enter__` on a fresh scope completes: it leaves
the namespace at the updated state and stores the recorded priors. -/
theorem enterRun_eq (cfg : CVal) (changes : List (String × CVal))
    (hdiv : (changes.map Prod.fst).Pairwise DivKey)
    (hres : ∀ kv ∈ changes, (ConfigMixin_get_single cfg kv.1).isSome) :
    enterRun cfg ⟨changes, []⟩ =
      ((updateRun cfg changes).1, ⟨changes, (recordPriors cfg changes).1⟩, true) := by
  have h1 := (recordPriors_spec changes cfg hres).1
  have h2 := (updateRun_spec changes cfg hdiv hres).1
  simp only [enterRun, h1, if_true, h2]

/-- For a valid change set, `__exit__` after a completed `__enter__`
completes, clears the prior set, and returns every patched key to its
pre-patch value. -/
theorem exitRun_restores (cfg : CVal) (changes : List (String × CVal))
    (hdiv : (changes.map Prod.fst).Pairwise DivKey)
    (hres : ∀ kv ∈ changes, (ConfigMixin_get_single cfg kv.1).isSome) :
    exitRun (updateRun cfg changes).1 ⟨changes, (recordPriors cfg changes).1⟩ =
      ((updateRun (updateRun cfg changes).1 (recordPriors cfg changes).1).1,
        ⟨changes, []⟩, true) ∧
    ∀ kv ∈ changes,
      ConfigMixin_get_single
          (updateRun (updateRun cfg changes).1 (recordPriors cfg changes).1).1 kv.1 =
        ConfigMixin_get_single cfg kv.1 := by
  obtain ⟨hrp1, hkeys, hvals⟩ := recordPriors_spec changes cfg hres
  obtain ⟨hu1, hu2, hu3⟩ := updateRun_spec changes cfg hdiv hres
  have hdivPr : (((recordPriors cfg changes).1).map Prod.fst).Pairwise DivKey := by
    rw [hkeys]; exact hdiv
  have hresPr : ∀ pkv ∈ (recordPriors cfg changes).1,
      (ConfigMixin_get_single (updateRun cfg changes).1 pkv.1).isSome := by
    intro pkv hpkv
    have hmem : pkv.1 ∈ changes.map Prod.fst := by
      rw [← hkeys]
      exact List.mem_map_of_mem Prod.fst hpkv
    obtain ⟨kv, hkv, hfst⟩ := List.mem_map.mp hmem
    rw [← hfst, hu2 kv hkv]
    rfl
  obtain ⟨hp1, hp2, hp3⟩ :=
    updateRun_spec (recordPriors cfg changes).1 (updateRun cfg changes).1 hdivPr hresPr
  constructor
  · simp only [exitRun, hp1, if_true]
  · intro kv hkv
    have hmem : kv.1 ∈ ((recordPriors cfg changes).1).map Prod.fst := by
      rw [hkeys]
      exact List.mem_map_of_mem Prod.fst hkv
    obtain ⟨pkv, hpkv, hfst⟩ := List.mem_map.mp hmem
    rw [← hfst, hp2 pkv hpkv, hvals pkv hpkv]

/-- Claim C3: for every valid change set, a patch scope used as a context
guard restores every patched namespace key to its pre-patch value on exit,
including when the guarded block raises an exception (the `with` statement
runs `__exit__` on the exceptional path as well, which `withPatchRun`
models); after exit the recorded prior set is empty. -/
theorem claim_C3_patch_guard_restores (cfg : CVal) (changes : List (String × CVal))
    (raised : Bool) (hv : ValidChanges cfg changes) :
    (∀ kv ∈ changes,
        ConfigMixin_get_single (withPatchRun cfg ⟨changes, []⟩ (fun c => (c, raised))).1 kv.1 =
          ConfigMixin_get_single cfg kv.1) ∧
    (withPatchRun cfg ⟨changes, []⟩ (fun c => (c, raised))).2.1.prior = [] := by
  obtain ⟨hdiv, hres⟩ := hv
  have he := enterRun_eq cfg changes hdiv hres
  obtain ⟨hx, hrest⟩ := exitRun_restores cfg changes hdiv hres
  constructor
  · intro kv hkv
    simp only [withPatchRun, he, hx]
    exact hrest kv hkv
  · simp [withPatchRun, he, hx]

/-- Claim C4: entering a scope object that has been entered and not yet
exited (its recorded prior set is nonempty) fails the internal assertion,
leaving namespace and scope untouched; entering, exiting, and then entering
the same scope object again succeeds. -/
theorem claim_C4_single_use_reusable :
    (∀ (cfg : CVal) (s : PatchScope), s.prior ≠ [] →
        (enterRun cfg s).1 = cfg ∧ (enterRun cfg s).2.1 = s ∧ (enterRun cfg s).2.2 = false) ∧
    (∀ (cfg : CVal) (changes : List (String × CVal)), ValidChanges cfg changes →
        (enterRun (exitRun (enterRun cfg ⟨changes, []⟩).1 (enterRun cfg ⟨changes, []⟩).2.1).1
            (exitRun (enterRun cfg ⟨changes, []⟩).1 (enterRun cfg ⟨changes, []⟩).2.1).2.1).2.2
          = true) := by
  constructor
  · intro cfg s hp
    obtain ⟨chs, prior⟩ := s
    cases prior with
    | nil => exact absurd rfl hp
    | cons a pr => exact ⟨rfl, rfl, rfl⟩
  · intro cfg changes hv
    obtain ⟨hdiv, hres⟩ := hv
    have he := enterRun_eq cfg changes hdiv hres
    obtain ⟨hx, hrest⟩ := exitRun_restores cfg changes hdiv hres
    have hres2 : ∀ kv ∈ changes,
        (ConfigMixin_get_single
            (updateRun (updateRun cfg changes).1 (recordPriors cfg changes).1).1 kv.1).isSome := by
      intro kv hkv
      rw [hrest kv hkv]
      exact hres kv hkv
    simp only [he, hx]
    rw [enterRun_eq _ changes hdiv hres2]

/-- Claim C10: scope entry records all priors before its first write, so an
entry that fails because some key path does not resolve leaves the namespace
unchanged (and reports the failure). -/
theorem claim_C10_no_write_on_entry_failure (cfg : CVal) (s : PatchScope)
    (hp : s.prior = [])
    (hfail : ∃ kv ∈ s.changes, ConfigMixin_get_single cfg kv.1 = none) :
    (enterRun cfg s).1 = cfg ∧ (enterRun cfg s).2.2 = false := by
  obtain ⟨chs, prior⟩ := s
  simp only at hp
  subst hp
  have hf : (recordPriors cfg chs).2 = false := recordPriors_fail chs cfg hfail
  simp only [enterRun, hf]
  exact ⟨rfl, rfl⟩

/-- Claim C7 (amended): for every dotted key for which the update succeeds —
the prefix segments must resolve AND land on attribute namespaces, not on
primitive leaves — `update({key: v})` followed by `_get_single(key)` returns
`v`; and when some prefix segment fails to resolve, the update fails with
the attribute-not-found error. -/
theorem claim_C7_update_then_get (cfg : CVal) (key : String) (v : CVal) :
    (∀ cfg2, ConfigMixin_update_single cfg key v = some cfg2 →
        ConfigMixin_get_single cfg2 key = some v) ∧
    (getPath cfg ((splitKey key).dropLast) = none →
        ConfigMixin_update_single cfg key v = none) := by
  constructor
  · intro cfg2 h
    exact getPath_setPath_same _ _ _ _ h
  · intro h
    exact setPath_none_of_walk_none _ _ _ h

/-- Claim C7, counterexample to the claim as stated: on the namespace with a
single primitive attribute `a = 5` and key `a.b`, the prefix segment `a`
resolves, yet `update({key: v})` raises (setting an attribute on the
primitive fails), so the update-then-get round trip does not return `v`. -/
theorem claim_C7_counterexample :
    (getPath (CVal.obj [(("a"), CVal.prim 5)]) ((splitKey ("a.b")).dropLast)).isSome = true ∧
    ConfigMixin_update_single (CVal.obj [(("a"), CVal.prim 5)]) ("a.b") (CVal.prim 7) = none := by
  exact ⟨rfl, rfl⟩

/-- Claim C7, witness for the amended theorem at a concrete input. -/
theorem claim_C7_witness :
    ConfigMixin_update_single (CVal.obj [(("a"), CVal.obj [(("b"), CVal.prim 1)])]) ("a.b")
        (CVal.prim 7) = some (CVal.obj [(("a"), CVal.obj [(("b"), CVal.prim 7)])]) ∧
    ConfigMixin_get_single (CVal.obj [(("a"), CVal.obj [(("b"), CVal.prim 7)])]) ("a.b") =
      some (CVal.prim 7) :=
  ⟨rfl,
    (claim_C7_update_then_get (CVal.obj [(("a"), CVal.obj [(("b"), CVal.prim 1)])]) ("a.b")
      (CVal.prim 7)).1 _ rfl⟩

theorem getattrA_eq_none_iff (l : List (String × CVal)) (k : String) :
    getattrA l k = none ↔ k ∉ l.map Prod.fst := by
  induction l with
  | nil => simp [getattrA]
  | cons kv rest ih =>
      obtain ⟨k0, v0⟩ := kv
      by_cases h : k0 = k
      · subst h
        simp [getattrA]
      · have h2 : ¬ k = k0 := fun he => h he.symm
        simp [getattrA, h, ih, h2]

theorem delattrA_keys_sublist (l : List (String × CVal)) (name : String)
    (r : List (String × CVal)) (h : delattrA l name = some r) :
    List.Sublist (r.map Prod.fst) (l.map Prod.fst) := by
  induction l generalizing r with
  | nil => simp [delattrA] at h
  | cons kv rest ih =>
      obtain ⟨k0, v0⟩ := kv
      simp only [delattrA] at h
      by_cases hk : k0 = name
      · rw [if_pos hk] at h
        injection h with h
        subst h
        simp only [List.map_cons]
        exact List.sublist_cons_self _ _
      · rw [if_neg hk] at h
        cases hd : delattrA rest name with
        | none =>
            rw [hd] at h
            exact Option.noConfusion h
        | some r2 =>
            rw [hd] at h
            simp only [Option.map_some', Option.some.injEq] at h
            subst h
            simp only [List.map_cons]
            exact List.Sublist.cons₂ _ (ih r2 hd)

theorem getattrA_delattrA_ne (l r : List (String × CVal)) (name k : String)
    (hne : k ≠ name) (h : delattrA l name = some r) :
    getattrA r k = getattrA l k := by
  induction l generalizing r with
  | nil => simp [delattrA] at h
  | cons kv rest ih =>
      obtain ⟨k0, v0⟩ := kv
      simp only [delattrA] at h
      by_cases hk : k0 = name
      · rw [if_pos hk] at h
        injection h with h
        subst h
        simp only [getattrA]
        rw [if_neg (fun he : k0 = k => hne (he.symm.trans hk))]
      · rw [if_neg hk] at h
        cases hd : delattrA rest name with
        | none =>
            rw [hd] at h
            exact Option.noConfusion h
        | some r2 =>
            rw [hd] at h
            simp only [Option.map_some', Option.some.injEq] at h
            subst h
            simp only [getattrA]
            by_cases h2 : k0 = k
            · rw [if_pos h2, if_pos h2]
            · rw [if_neg h2, if_neg h2]
              exact ih r2 hd

theorem getattrA_delattrA_self (l r : List (String × CVal)) (name : String)
    (hnd : (l.map Prod.fst).Nodup) (h : delattrA l name = some r) :
    getattrA r name = none := by
  induction l generalizing r with
  | nil => simp [delattrA] at h
  | cons kv rest ih =>
      obtain ⟨k0, v0⟩ := kv
      simp only [delattrA] at h
      by_cases hk : k0 = name
      · rw [if_pos hk] at h
        injection h with h
        subst h
        subst hk
        rw [getattrA_eq_none_iff]
        exact (List.nodup_cons.mp hnd).1
      · rw [if_neg hk] at h
        cases hd : delattrA rest name with
        | none =>
            rw [hd] at h
            exact Option.noConfusion h
        | some r2 =>
            rw [hd] at h
            simp only [Option.map_some', Option.some.injEq] at h
            subst h
            simp only [getattrA]
            rw [if_neg hk]
            exact ih r2 (List.nodup_cons.mp hnd).2 hd

/-- A completed `save_config` run: the blob keys are a sublist of the
original keys, every ignored key is absent from the blob, and every other
key keeps its binding. -/
theorem save_config_spec (ignore : List String) (attrs blob : List (String × CVal))
    (hnd : (attrs.map Prod.fst).Nodup) (h : save_config attrs ignore = some blob) :
    List.Sublist (blob.map Prod.fst) (attrs.map Prod.fst) ∧
    (∀ k ∈ ignore, getattrA blob k = none) ∧
    (∀ k, k ∉ ignore → getattrA blob k = getattrA attrs k) := by
  induction ignore generalizing attrs with
  | nil =>
      simp only [save_config, List.foldlM_nil] at h
      injection h with h
      subst h
      refine ⟨List.Sublist.refl _, ?_, fun k _ => rfl⟩
      intro k hk
      simp at hk
  | cons n rest ih =>
      simp only [save_config, List.foldlM_cons] at h
      cases hd : delattrA attrs n with
      | none =>
          rw [hd] at h
          exact Option.noConfusion h
      | some r =>
          rw [hd] at h
          have hsub1 : List.Sublist (r.map Prod.fst) (attrs.map Prod.fst) :=
            delattrA_keys_sublist _ _ _ hd
          have hndr : (r.map Prod.fst).Nodup := hnd.sublist hsub1
          obtain ⟨ihsub, ihign, ihoth⟩ := ih r hndr h
          refine ⟨ihsub.trans hsub1, ?_, ?_⟩
          · intro k hk
            rcases List.mem_cons.mp hk with hk | hk
            · subst hk
              have h1 : getattrA r k = none := getattrA_delattrA_self _ _ _ hnd hd
              have h2 : k ∉ r.map Prod.fst := (getattrA_eq_none_iff _ _).mp h1
              exact (getattrA_eq_none_iff _ _).mpr (fun hmem => h2 (ihsub.mem hmem))
            · exact ihign k hk
          · intro k hk
            have hkn : k ≠ n := fun he => hk (he ▸ List.mem_cons_self n rest)
            have hkrest : k ∉ rest := fun hm => hk (List.mem_cons_of_mem _ hm)
            rw [ihoth k hkrest, getattrA_delattrA_ne _ _ _ _ hkn hd]

/-- Loading a blob that does not bind `k` leaves the binding of `k` in the
live namespace unchanged. -/
theorem load_config_not_mem (blob self : List (String × CVal)) (k : String)
    (h : k ∉ blob.map Prod.fst) : getattrA (load_config self blob) k = getattrA self k := by
  induction blob generalizing self with
  | nil => rfl
  | cons kv rest ih =>
      obtain ⟨k0, v0⟩ := kv
      have hk0 : k ≠ k0 := by
        intro he
        exact h (by simp [he])
      have hrest : k ∉ rest.map Prod.fst := fun hm => h (by simp [hm])
      simp only [load_config, List.foldl_cons]
      have := ih (setattrA self k0 v0) hrest
      simp only [load_config] at this
      rw [this, getattrA_setattrA_ne _ _ _ _ hk0]

/-- Loading a blob with unique keys reproduces every binding of the blob in
the resulting namespace, overwriting the live attributes. -/
theorem load_config_mem (blob self : List (String × CVal)) (k : String) (v : CVal)
    (hnd : (blob.map Prod.fst).Nodup) (h : getattrA blob k = some v) :
    getattrA (load_config self blob) k = some v := by
  induction blob generalizing self with
  | nil => simp [getattrA] at h
  | cons kv rest ih =>
      obtain ⟨k0, v0⟩ := kv
      simp only [load_config, List.foldl_cons]
      by_cases hk : k0 = k
      · subst hk
        simp only [getattrA, if_pos rfl] at h
        injection h with h
        subst h
        have hnotin : k0 ∉ rest.map Prod.fst := (List.nodup_cons.mp hnd).1
        have hpres := load_config_not_mem rest (setattrA self k0 v0) k0 hnotin
        simp only [load_config] at hpres
        rw [hpres, getattrA_setattrA_same]
      · simp only [getattrA, if_neg hk] at h
        exact ih (setattrA self k0 v0) (List.nodup_cons.mp hnd).2 h

/-- Claim C8: `save_config` serializes the namespace with every key of the
ignore list removed, and `load_config` applied to that blob on a fresh
namespace reproduces every non-ignored field exactly, overwriting the live
attributes. -/
theorem claim_C8_save_load_roundtrip (attrs blob fresh : List (String × CVal))
    (ignore : List String) (hnd : (attrs.map Prod.fst).Nodup)
    (hsave : save_config attrs ignore = some blob) :
    (∀ k ∈ ignore, getattrA blob k = none) ∧
    (∀ k, k ∉ ignore → getattrA blob k = getattrA attrs k) ∧
    (∀ k v, getattrA attrs k = some v → k ∉ ignore →
        getattrA (load_config fresh blob) k = some v) := by
  obtain ⟨hsub, hign, hoth⟩ := save_config_spec ignore attrs blob hnd hsave
  refine ⟨hign, hoth, ?_⟩
  intro k v hv hk
  have hb : getattrA blob k = some v := by rw [hoth k hk]; exact hv
  have hndb : (blob.map Prod.fst).Nodup := hnd.sublist hsub
  exact load_config_mem blob fresh k v hndb hb

/-- Claim C8, witness at a concrete input: saving a two-field namespace with
`secret` on the ignore list removes `secret` from the blob, and loading the
blob onto a fresh namespace of the same shape reproduces the non-ignored
field `a`. -/
theorem claim_C8_witness :
    getattrA [(("a"), CVal.prim 1)] ("secret") = none ∧
    getattrA (load_config [(("a"), CVal.prim 0), (("secret"), CVal.prim 0)]
        [(("a"), CVal.prim 1)]) ("a") = some (CVal.prim 1) :=
  ⟨(claim_C8_save_load_roundtrip [("a", CVal.prim 1), ("secret", CVal.prim 2)]
      [("a", CVal.prim 1)] [("a", CVal.prim 0), ("secret", CVal.prim 0)] ["secret"]
      (by decide) rfl).1 ("secret") (by simp),
   (claim_C8_save_load_roundtrip [("a", CVal.prim 1), ("secret", CVal.prim 2)]
      [("a", CVal.prim 1)] [("a", CVal.prim 0), ("secret", CVal.prim 0)] ["secret"]
      (by decide) rfl).2.2 ("a") (CVal.prim 1) rfl (by simp)⟩

/-- Claim C9: applying the decorator to a class does not reach the
test-fixture wrapping at all: the guard `issubclass(func, unittest.TestCase)`
raises `NameError`, because `unittest` is bound neither in the module globals
of `torch/config_utils.py` nor in the builtins. -/
theorem claim_C9_decorator_name_error :
    contextDecoratorCall true = DecorateResult.nameErrorRaised ("unittest") := by
  decide

/-- Claim C3, witness at a concrete input: patching `a` on a two-field
namespace inside a guard whose block raises restores `a` and clears the
prior set. -/
theorem claim_C3_witness :
    (∀ kv ∈ [(("a"), CVal.prim 10)],
        ConfigMixin_get_single
            (withPatchRun (CVal.obj [(("a"), CVal.prim 1), (("b"), CVal.prim 2)])
              ⟨[(("a"), CVal.prim 10)], []⟩ (fun c => (c, true))).1 kv.1 =
          ConfigMixin_get_single (CVal.obj [(("a"), CVal.prim 1), (("b"), CVal.prim 2)]) kv.1) ∧
    (withPatchRun (CVal.obj [(("a"), CVal.prim 1), (("b"), CVal.prim 2)])
        ⟨[(("a"), CVal.prim 10)], []⟩ (fun c => (c, true))).2.1.prior = [] :=
  claim_C3_patch_guard_restores _ _ true ⟨by simp [DivKey], by decide⟩

/-- Claim C4, witness at a concrete input: entering a scope with a nonempty
prior set fails, and enter-exit-enter on a fresh scope completes. -/
theorem claim_C4_witness :
    ((enterRun (CVal.obj [(("a"), CVal.prim 1)])
        ⟨[(("a"), CVal.prim 10)], [(("a"), CVal.prim 1)]⟩).2.2 = false) ∧
    ((enterRun (exitRun (enterRun (CVal.obj [(("a"), CVal.prim 1)]) ⟨[(("a"), CVal.prim 10)], []⟩).1
          (enterRun (CVal.obj [(("a"), CVal.prim 1)]) ⟨[(("a"), CVal.prim 10)], []⟩).2.1).1
        (exitRun (enterRun (CVal.obj [(("a"), CVal.prim 1)]) ⟨[(("a"), CVal.prim 10)], []⟩).1
          (enterRun (CVal.obj [(("a"), CVal.prim 1)]) ⟨[(("a"), CVal.prim 10)], []⟩).2.1).2.1).2.2
      = true) :=
  ⟨(claim_C4_single_use_reusable.1 _ _ (by simp)).2.2,
   claim_C4_single_use_reusable.2 _ _ ⟨by simp [DivKey], by decide⟩⟩

/-- Claim C10, witness at a concrete input: entering a scope whose key does
not resolve leaves the namespace unchanged and reports the failure. -/
theorem claim_C10_witness :
    (enterRun (CVal.obj [(("a"), CVal.prim 1)]) ⟨[(("missing"), CVal.prim 5)], []⟩).1 =
      CVal.obj [(("a"), CVal.prim 1)] ∧
    (enterRun (CVal.obj [(("a"), CVal.prim 1)]) ⟨[(("missing"), CVal.prim 5)], []⟩).2.2 = false :=
  claim_C10_no_write_on_entry_failure _ _ rfl ⟨("missing", CVal.prim 5), by simp, rfl⟩

/-- Claim C1: the in-place parameter update `param.add_(d_p, alpha=-lr)`
sits outside the per-parameter loop and uses the loop variables of the last
iteration, so in every call with two or more parameters each parameter
except the last one in the list is left unchanged by the step. -/
theorem claim_C1_only_last_param_updated (a : LarsArgs) (params grads : List Tensor)
    (bufs : List (Option Tensor)) (h2 : 2 ≤ params.length)
    (hg : params.length ≤ grads.length) (hb : params.length ≤ bufs.length)
    (i : ℕ) (hi : i < params.length - 1) :
    (_single_tensor_lars a params grads bufs).map (fun r => r.1[i]?) = some params[i]? := by
  have hguard : ¬(params.length = 0 ∨ grads.length < params.length ∨
      bufs.length < params.length) := by
    push_neg
    exact ⟨by omega, by omega, by omega⟩
  have hne : params ≠ [] := by
    intro h
    rw [h] at h2
    simp at h2
  obtain ⟨pl, hpl⟩ := Option.isSome_iff_exists.mp (List.getLast?_isSome.mpr hne)
  have hlen : (List.zipWith (fun pg b => larsIter a pg.1 pg.2 b) (params.zip grads) bufs).length
      = params.length := by
    rw [List.length_zipWith, List.length_zip]
    omega
  have hne2 : List.zipWith (fun pg b => larsIter a pg.1 pg.2 b) (params.zip grads) bufs ≠ [] := by
    intro h
    rw [h] at hlen
    simp at hlen
    omega
  obtain ⟨it, hit⟩ := Option.isSome_iff_exists.mp (List.getLast?_isSome.mpr hne2)
  have hset : (params.set (params.length - 1) (taddScaled pl it.1 (-a.lr)))[i]? = params[i]? :=
    List.getElem?_set_ne (by omega)
  simp only [_single_tensor_lars, hpl, hit]
  rw [if_neg hguard]
  simp only [Option.map_some']
  rw [hset]

/-- Claim C1, witness at a concrete two-parameter call: the first parameter
is returned unchanged. -/
theorem claim_C1_witness :
    (_single_tensor_lars ⟨1, 0, 0, 0, false, 1/1000, 1/100000000, false⟩
        [[(1:ℝ)], [(2:ℝ)]] [[(3:ℝ)], [(4:ℝ)]] [none, none]).map (fun r => r.1[0]?) =
      some (([[(1:ℝ)], [(2:ℝ)]] : List Tensor)[0]?) :=
  claim_C1_only_last_param_updated _ _ _ _ (by simp) (by simp) (by simp) 0 (by simp)

/-- Claim C2 concerns the intended contract `param_after = param_before -
lr * grad` for EVERY parameter with a gradient.  The reference loop applies
the update only to the last parameter: at the failing input below (two
parameters, `weight_decay = 0`, `momentum = 0`, `lr = 1`, all entries `1`)
the first parameter comes back unchanged as `[1]`, while the claimed
gradient-descent result for it is `[1 - 1 * 1] = [0]`. -/
theorem claim_C2_failing_input_behavior :
    _single_tensor_lars ⟨1, 0, 0, 0, false, 1/1000, 1/100000000, false⟩
        [[(1:ℝ)], [(1:ℝ)]] [[(1:ℝ)], [(1:ℝ)]] [none, none] =
      some ([[(1:ℝ)], [(0:ℝ)]], [none, none]) ∧
    ([(1:ℝ)] : Tensor) ≠ [(1:ℝ) - 1 * 1] := by
  constructor
  · simp [_single_tensor_lars, larsIter, larsScaleStep, effGrad, taddScaled]
  · intro h
    have h2 : (1:ℝ) = 1 - 1 * 1 := List.head_eq_of_cons_eq h
    norm_num at h2

/-- Claim C5: with nonzero `weight_decay`, a parameter whose norm product
`p_norm * g_norm` is exactly zero skips the LARS scaling and the
weight-decay term entirely (the guarded division is never reached), and the
update direction is the raw effective gradient (stated for the direction
leaving the scaling block, and for the full iteration when `momentum = 0`). -/
theorem claim_C5_zero_norm_product_skips_scaling (a : LarsArgs) (param grad : Tensor)
    (buf0 : Option Tensor) (hwd : a.weight_decay ≠ 0)
    (hz : tnorm param * tnorm (effGrad a.maximize grad) = 0) :
    larsScaleStep a param (effGrad a.maximize grad) = effGrad a.maximize grad ∧
    (a.momentum = 0 → (larsIter a param grad buf0).1 = effGrad a.maximize grad) := by
  have hnot : ¬ (tnorm param * tnorm (effGrad a.maximize grad) > 0) := by
    rw [hz]
    exact lt_irrefl 0
  have h1 : larsScaleStep a param (effGrad a.maximize grad) = effGrad a.maximize grad := by
    simp only [larsScaleStep]
    rw [if_pos hwd, if_neg hnot]
  refine ⟨h1, ?_⟩
  intro hm
  simp only [larsIter, h1]
  rw [if_neg (fun h : a.momentum ≠ 0 => h hm)]

/-- Claim C5, witness at a concrete input: zero parameter, nonzero weight
decay, unit gradient. -/
theorem claim_C5_witness :
    larsScaleStep ⟨1, 0, 0, 1, false, 1/1000, 1/100000000, false⟩ [(0:ℝ)]
        (effGrad false [(1:ℝ)]) = effGrad false [(1:ℝ)] ∧
    ((0:ℝ) = 0 →
      (larsIter ⟨1, 0, 0, 1, false, 1/1000, 1/100000000, false⟩ [(0:ℝ)] [(1:ℝ)] none).1 =
        effGrad false [(1:ℝ)]) :=
  claim_C5_zero_norm_product_skips_scaling _ _ _ _ (by norm_num)
    (by simp [tnorm, sumSq, effGrad, Real.sqrt_zero])

/-- Claim C6: `LARS.__init__` raises a configuration error exactly when the
learning rate is negative, the weight decay is negative, the momentum is
negative, or nesterov is requested with momentum at most zero or nonzero
dampening; in particular `nesterov=True, momentum=0` raises while
`nesterov=True, momentum=0.9, dampening=0` succeeds. -/
theorem claim_C6_init_validation :
    (∀ (lr momentum dampening weight_decay : ℝ) (nesterov : Bool)
        (trust_coefficient eps : ℝ) (maximize : Bool),
      (∃ e, LARS_init lr momentum dampening weight_decay nesterov trust_coefficient eps maximize
          = Except.error e) ↔
        (lr < 0 ∨ weight_decay < 0 ∨ momentum < 0 ∨
          (nesterov = true ∧ (momentum ≤ 0 ∨ dampening ≠ 0)))) ∧
    (∃ e, LARS_init (1/10) 0 0 0 true (1/1000) (1/100000000) false = Except.error e) ∧
    LARS_init (1/10) (9/10) 0 0 true (1/1000) (1/100000000) false =
      Except.ok ⟨1/10, 9/10, 0, 0, true, 1/1000, 1/100000000, false⟩ := by
  refine ⟨?_, ?_, ?_⟩
  · intro lr momentum dampening weight_decay nesterov trust_coefficient eps maximize
    unfold LARS_init
    split_ifs with h1 h2 h3 h4
    · exact iff_of_true ⟨_, rfl⟩ (Or.inl h1)
    · exact iff_of_true ⟨_, rfl⟩ (Or.inr (Or.inl h2))
    · exact iff_of_true ⟨_, rfl⟩ (Or.inr (Or.inr (Or.inl h3)))
    · exact iff_of_true ⟨_, rfl⟩ (Or.inr (Or.inr (Or.inr h4)))
    · refine iff_of_false ?_ ?_
      · rintro ⟨e, he⟩
        cases he
      · tauto
  · refine ⟨InitError.nesterovRequiresMomentumAndZeroDampening, ?_⟩
    unfold LARS_init
    rw [if_neg (by norm_num), if_neg (by norm_num), if_neg (by norm_num),
      if_pos ⟨rfl, Or.inl (by norm_num)⟩]
  · unfold LARS_init
    rw [if_neg (by norm_num), if_neg (by norm_num), if_neg (by norm_num),
      if_neg (by norm_num)]
